import Mathlib

/-!
Verification of the core of the chatgpt-code-plugin repository: the
ignore-aware file indexer (getFileList), the syntax-aware symbol extractor
(findFunctionsInFile / extractFunctionRange / getFunctionData /
getFunctionList) and the minimize heuristic, all from
src/function-utils.ts (the revision that threads one ignore instance
through the traversal, lines 169-337 of the concatenated file).

JavaScript strings are embedded as Lean String (char lists via .data);
the JS string operations used by the source (split, startsWith, slice,
substring, endsWith, concatenation) are defined below over char lists.
The filesystem is embedded as a tree of entries; paths are represented as
lists of path segments, the image of the path.join / path.relative
arithmetic of the source (joining segments with a slash is a bijective
recoding kept implicit).  The third-party ignore npm package (gitignore
pattern matching) is not part of the repository; it is modelled from the
gitignore semantics the spec invokes, see the comment on Rule below.
-/

namespace CodePlugin

/-- Character class of the line separators in the regexes /(\n|\r)/ and
/\n|\r/ used by the source. -/
def lineSep (c : Char) : Bool := c = '\n' || c = '\r'

/-- Model of the JS String.prototype.split with a non-capturing separator
predicate: chunks between separator characters, separators dropped.
Auxiliary accumulates the current chunk in reverse. -/
def splitPredAux (p : Char → Bool) : List Char → List Char → List (List Char)
  | [], acc => [acc.reverse]
  | c :: cs, acc =>
    if p c then acc.reverse :: splitPredAux p cs []
    else splitPredAux p cs (c :: acc)

def splitPred (p : Char → Bool) (cs : List Char) : List (List Char) :=
  splitPredAux p cs []

/-- Model of the JS String.prototype.split with a CAPTURING separator
group, as in body.split(/(\n|\r)/): the separator characters themselves
are spliced into the result between the chunks. -/
def splitKeepAux (p : Char → Bool) : List Char → List Char → List (List Char)
  | [], acc => [acc.reverse]
  | c :: cs, acc =>
    if p c then acc.reverse :: [c] :: splitKeepAux p cs []
    else splitKeepAux p cs (c :: acc)

def splitKeep (p : Char → Bool) (cs : List Char) : List (List Char) :=
  splitKeepAux p cs []

/-- Lines of a string in the sense of the source regex /\n|\r/ (each
single LF or CR is a separator, so a CRLF pair produces an empty line). -/
def splitLines (s : String) : List String :=
  (splitPred lineSep s.data).map fun l => String.mk l

/-- Model of minimize from src/function-utils.ts:

    const bodyLines = body.split(/(\n|\r)/);
    const MIN_LINES = 2;
    if (bodyLines.length <= MIN_LINES) return body;
    return bodyLines[0] + String.fromCharCode(10) + comment + ... ;

(the returned string is bodyLines[0] + a newline, the marker line, a
newline, + bodyLines[bodyLines.length - 1]).  Note the capturing group:
the separators count toward bodyLines.length. -/
def minimize (body : String) : String :=
  let bodyLines := (splitKeep lineSep body.data).map fun l => String.mk l
  if bodyLines.length ≤ 2 then body
  else bodyLines.headD "" ++ "\n// ...\n" ++ bodyLines.getLastD ""

theorem splitPredAux_ne_nil (p : Char → Bool) (cs acc : List Char) :
    splitPredAux p cs acc ≠ [] := by
  induction cs generalizing acc with
  | nil => simp [splitPredAux]
  | cons c cs ih =>
    simp only [splitPredAux]
    split
    · simp
    · exact ih _

theorem splitKeepAux_ne_nil (p : Char → Bool) (cs acc : List Char) :
    splitKeepAux p cs acc ≠ [] := by
  induction cs generalizing acc with
  | nil => simp [splitKeepAux]
  | cons c cs ih =>
    simp only [splitKeepAux]
    split
    · simp
    · exact ih _

/-- The two split variants agree on the first chunk. -/
theorem splitKeepAux_head_eq (p : Char → Bool) (cs acc : List Char) :
    (splitKeepAux p cs acc).headD [] = (splitPredAux p cs acc).headD [] := by
  induction cs generalizing acc with
  | nil => simp [splitKeepAux, splitPredAux]
  | cons c cs ih =>
    simp only [splitKeepAux, splitPredAux]
    split
    · simp
    · exact ih _

theorem getLastD_irrel {α : Type} (l : List α) (h : l ≠ []) (d₁ d₂ : α) :
    l.getLastD d₁ = l.getLastD d₂ := by
  cases l with
  | nil => exact absurd rfl h
  | cons x xs => rw [List.getLastD_cons, List.getLastD_cons]

/-- The two split variants agree on the last chunk. -/
theorem splitKeepAux_last_eq (p : Char → Bool) (cs acc : List Char) :
    (splitKeepAux p cs acc).getLastD [] = (splitPredAux p cs acc).getLastD [] := by
  induction cs generalizing acc with
  | nil => simp [splitKeepAux, splitPredAux]
  | cons c cs ih =>
    simp only [splitKeepAux, splitPredAux]
    split
    · rw [List.getLastD_cons, List.getLastD_cons, List.getLastD_cons]
      rw [getLastD_irrel (splitKeepAux p cs []) (splitKeepAux_ne_nil p cs []) [c] []]
      rw [getLastD_irrel (splitPredAux p cs []) (splitPredAux_ne_nil p cs []) acc.reverse []]
      exact ih []
    · exact ih _

theorem splitPredAux_length (p : Char → Bool) (cs acc : List Char) :
    (splitPredAux p cs acc).length = (cs.countP p) + 1 := by
  induction cs generalizing acc with
  | nil => simp [splitPredAux]
  | cons c cs ih =>
    simp only [splitPredAux]
    split
    · next h => rw [List.length_cons, ih, List.countP_cons]; simp [h]
    · next h => rw [ih, List.countP_cons]; simp [h]

theorem splitKeepAux_length (p : Char → Bool) (cs acc : List Char) :
    (splitKeepAux p cs acc).length = 2 * (cs.countP p) + 1 := by
  induction cs generalizing acc with
  | nil => simp [splitKeepAux]
  | cons c cs ih =>
    simp only [splitKeepAux]
    split
    · next h =>
      rw [List.length_cons, List.length_cons, ih, List.countP_cons]
      simp [h]
      omega
    · next h => rw [ih, List.countP_cons]; simp [h]

/-- Every chunk produced by splitPredAux from a separator-free
accumulator is separator-free. -/
theorem splitPredAux_chunks_sep_free (p : Char → Bool) (cs acc : List Char)
    (hacc : ∀ a ∈ acc, p a = false) :
    ∀ l ∈ splitPredAux p cs acc, ∀ a ∈ l, p a = false := by
  induction cs generalizing acc with
  | nil =>
    intro l hl
    simp [splitPredAux] at hl
    subst hl
    intro a ha
    exact hacc a (List.mem_reverse.mp ha)
  | cons c cs ih =>
    intro l hl
    simp only [splitPredAux] at hl
    split at hl
    · rcases List.mem_cons.mp hl with h | h
      · subst h
        intro a ha
        exact hacc a (List.mem_reverse.mp ha)
      · exact ih [] (by simp) l h
    · next hc =>
      refine ih (c :: acc) ?_ l hl
      intro a ha
      rcases List.mem_cons.mp ha with h | h
      · subst h; simpa using hc
      · exact hacc a h

/-- Splitting a concatenation whose left part is separator-free and is
followed by one explicit separator. -/
theorem splitPredAux_append_sep (p : Char → Bool) (xs rest acc : List Char)
    (hxs : ∀ a ∈ xs, p a = false) (c : Char) (hc : p c = true) :
    splitPredAux p (xs ++ c :: rest) acc =
      (acc.reverse ++ xs) :: splitPredAux p rest [] := by
  induction xs generalizing acc with
  | nil => simp [splitPredAux, hc]
  | cons x xs ih =>
    have hx : p x = false := hxs x (by simp)
    calc splitPredAux p ((x :: xs) ++ c :: rest) acc
        = splitPredAux p (xs ++ c :: rest) (x :: acc) := by
          simp only [List.cons_append, splitPredAux]
          rw [if_neg (by simp [hx])]
          rfl
      _ = ((x :: acc).reverse ++ xs) :: splitPredAux p rest [] :=
          ih (x :: acc) (fun a ha => hxs a (by simp [ha]))
      _ = (acc.reverse ++ x :: xs) :: splitPredAux p rest [] := by simp

/-- Splitting a separator-free list yields that single chunk. -/
theorem splitPredAux_sep_free (p : Char → Bool) (xs acc : List Char)
    (hxs : ∀ a ∈ xs, p a = false) :
    splitPredAux p xs acc = [acc.reverse ++ xs] := by
  induction xs generalizing acc with
  | nil => simp [splitPredAux]
  | cons x xs ih =>
    have hx : p x = false := hxs x (by simp)
    calc splitPredAux p (x :: xs) acc
        = splitPredAux p xs (x :: acc) := by
          simp only [splitPredAux]
          rw [if_neg (by simp [hx])]
      _ = [(x :: acc).reverse ++ xs] :=
          ih (x :: acc) (fun a ha => hxs a (by simp [ha]))
      _ = [acc.reverse ++ x :: xs] := by simp

theorem string_data_append (a b : String) : (a ++ b).data = a.data ++ b.data := by
  cases a; cases b; rfl

theorem headD_mem {α : Type} (l : List α) (h : l ≠ []) (d : α) : l.headD d ∈ l := by
  cases l with
  | nil => exact absurd rfl h
  | cons x xs => simp

theorem getLastD_mem_cons {α : Type} (l : List α) (d : α) : l.getLastD d ∈ d :: l := by
  induction l generalizing d with
  | nil => simp
  | cons x xs ih =>
    rw [List.getLastD_cons]
    exact List.mem_cons_of_mem d (ih x)

theorem map_mk_headD (l : List (List Char)) (d : List Char) :
    (l.map String.mk).headD (String.mk d) = String.mk (l.headD d) := by
  cases l <;> rfl

theorem map_mk_getLastD (l : List (List Char)) (d : List Char) :
    (l.map String.mk).getLastD (String.mk d) = String.mk (l.getLastD d) := by
  induction l generalizing d with
  | nil => rfl
  | cons x xs ih =>
    rw [List.map_cons, List.getLastD_cons, List.getLastD_cons]
    exact ih x

/-- The elision marker block inserted by minimize, as characters. -/
theorem marker_data :
    ("\n// ...\n" : String).data
      = '\n' :: ['/', '/', ' ', '.', '.', '.'] ++ ['\n'] := by decide

/-- C4 supporting computation: for a body of more than two lines (in the
sense of splitting on each LF or CR), minimize returns the first line, the
elision marker and the last line joined by newlines. -/
theorem minimize_gt_two_lines (s : String) (h : 2 < (splitLines s).length) :
    minimize s =
      (splitLines s).headD "" ++ "\n// ...\n" ++ (splitLines s).getLastD "" := by
  have hP : splitPred lineSep s.data ≠ [] := splitPredAux_ne_nil _ _ _
  have hK : splitKeep lineSep s.data ≠ [] := splitKeepAux_ne_nil _ _ _
  have hlenP : (splitPred lineSep s.data).length = (s.data.countP lineSep) + 1 :=
    splitPredAux_length _ _ _
  have hlenK : (splitKeep lineSep s.data).length = 2 * (s.data.countP lineSep) + 1 :=
    splitKeepAux_length _ _ _
  have hcount : 2 ≤ s.data.countP lineSep := by
    have : (splitLines s).length = (splitPred lineSep s.data).length := by
      simp [splitLines]
    omega
  have hgt : ¬ ((splitKeep lineSep s.data).map String.mk).length ≤ 2 := by
    simp only [List.length_map]
    omega
  show (if ((splitKeep lineSep s.data).map String.mk).length ≤ 2 then s
    else ((splitKeep lineSep s.data).map String.mk).headD "" ++ "\n// ...\n" ++
      ((splitKeep lineSep s.data).map String.mk).getLastD "") = _
  rw [if_neg hgt]
  have hempty : ("" : String) = String.mk [] := rfl
  rw [hempty, map_mk_headD, map_mk_getLastD]
  show String.mk ((splitKeepAux lineSep s.data []).headD []) ++ _ ++
      String.mk ((splitKeepAux lineSep s.data []).getLastD []) = _
  rw [splitKeepAux_head_eq, splitKeepAux_last_eq]
  have h1 : (splitLines s).headD "" =
      String.mk ((splitPredAux lineSep s.data []).headD []) := by
    rw [splitLines, hempty, map_mk_headD]
    rfl
  have h2 : (splitLines s).getLastD "" =
      String.mk ((splitPredAux lineSep s.data []).getLastD []) := by
    rw [splitLines, hempty, map_mk_getLastD]
    rfl
  rw [h1, h2]

/-- C4: for every input string that spans more than two lines, minimize
returns exactly three lines joined by newlines: the input's first line,
an elision marker line, and the input's last line.  Lines are the chunks
produced by splitting on each LF or CR character, the line notion of the
source's own regexes. -/
theorem minimize_more_than_two_lines_exactly_three (s : String)
    (h : 2 < (splitLines s).length) :
    splitLines (minimize s) =
      [(splitLines s).headD "", "// ...", (splitLines s).getLastD ""]
    ∧ minimize s =
      (splitLines s).headD "" ++ "\n// ...\n" ++ (splitLines s).getLastD "" := by
  refine ⟨?_, minimize_gt_two_lines s h⟩
  have hP : splitPred lineSep s.data ≠ [] := splitPredAux_ne_nil _ _ _
  set A := (splitPredAux lineSep s.data []).headD [] with hA
  set B := (splitPredAux lineSep s.data []).getLastD [] with hB
  have hAfree : ∀ a ∈ A, lineSep a = false := by
    refine splitPredAux_chunks_sep_free lineSep s.data [] (by simp) A ?_
    exact headD_mem _ hP _
  have hBfree : ∀ a ∈ B, lineSep a = false := by
    rcases List.mem_cons.mp (getLastD_mem_cons (splitPredAux lineSep s.data []) []) with
      hc | hc
    · intro a ha
      rw [hB, hc] at ha
      exact absurd ha (List.not_mem_nil a)
    · exact hB ▸ splitPredAux_chunks_sep_free lineSep s.data [] (by simp) _ hc
  have hMfree : ∀ a ∈ ['/', '/', ' ', '.', '.', '.'], lineSep a = false := by decide
  have hdata : (minimize s).data =
      A ++ '\n' :: (['/', '/', ' ', '.', '.', '.'] ++ '\n' :: B) := by
    rw [minimize_gt_two_lines s h]
    rw [string_data_append, string_data_append]
    have h1 : (splitLines s).headD "" = String.mk A := by
      rw [splitLines, show ("" : String) = String.mk [] from rfl, map_mk_headD]
      rfl
    have h2 : (splitLines s).getLastD "" = String.mk B := by
      rw [splitLines, show ("" : String) = String.mk [] from rfl, map_mk_getLastD]
      rfl
    rw [h1, h2, marker_data]
    simp
  rw [splitLines, hdata]
  rw [show splitPred lineSep (A ++ '\n' :: (['/', '/', ' ', '.', '.', '.'] ++ '\n' :: B))
      = splitPredAux lineSep (A ++ '\n' :: (['/', '/', ' ', '.', '.', '.'] ++ '\n' :: B)) []
    from rfl]
  rw [splitPredAux_append_sep lineSep A _ [] hAfree '\n' (by decide)]
  rw [splitPredAux_append_sep lineSep ['/', '/', ' ', '.', '.', '.'] _ [] hMfree '\n'
    (by decide)]
  rw [splitPredAux_sep_free lineSep B [] hBfree]
  have h1 : (splitLines s).headD "" = String.mk A := by
    rw [splitLines, show ("" : String) = String.mk [] from rfl, map_mk_headD]
    rfl
  have h2 : (splitLines s).getLastD "" = String.mk B := by
    rw [splitLines, show ("" : String) = String.mk [] from rfl, map_mk_getLastD]
    rfl
  rw [h1, h2]
  rfl

/-- Witness for the C4 theorem at the concrete three-line input. -/
theorem minimize_more_than_two_lines_witness :
    2 < (splitLines "alpha\nbeta\ngamma").length
    ∧ (splitLines (minimize "alpha\nbeta\ngamma") =
        [(splitLines "alpha\nbeta\ngamma").headD "", "// ...",
          (splitLines "alpha\nbeta\ngamma").getLastD ""]
      ∧ minimize "alpha\nbeta\ngamma" =
        (splitLines "alpha\nbeta\ngamma").headD "" ++ "\n// ...\n" ++
          (splitLines "alpha\nbeta\ngamma").getLastD "") :=
  ⟨by decide, minimize_more_than_two_lines_exactly_three "alpha\nbeta\ngamma" (by decide)⟩

/-- C3 evidence: the two-line input consisting of one LF between two
one-character lines is NOT returned unchanged by minimize; the capturing
group in body.split counts the separator itself, so bodyLines has three
elements and the elision branch runs, inserting a marker that elides
nothing.  This exhibits the divergence between the code and the stated
behaviour that input of at most two lines is returned unchanged. -/
theorem minimize_changes_two_line_input :
    splitLines "a\nb" = ["a", "b"]
    ∧ minimize "a\nb" = "a\n// ...\nb"
    ∧ minimize "a\nb" ≠ "a\nb" := by decide

/-- Model of JS String.prototype.substring: both indices are clamped to
the length and swapped when start exceeds end, then the half-open slice
is taken. -/
def jsSubstring (s : String) (a b : Nat) : String :=
  let len := s.data.length
  let a' := min a len
  let b' := min b len
  String.mk ((s.data.drop (min a' b')).take (max a' b' - min a' b'))

/-- Model of the typescript-estree AST shapes consumed by
findFunctionsInFile: only the node kinds and the fields the source reads.
Each declaration-like node also carries its verbatim source text (src);
the parser contract astFaithful below ties a node's range to that text,
which is what the upstream parser guarantees. -/
inductive VarId where
  | identifier (name : String)
  | otherPattern
deriving DecidableEq, Repr

inductive InitKind where
  | functionExpression
  | arrowFunctionExpression
  | otherInit
  | noInit
deriving DecidableEq, Repr

structure Declarator where
  binding : VarId
  init : InitKind
deriving DecidableEq, Repr

inductive MethodKey where
  | identifier (name : String)
  | otherKey
deriving DecidableEq, Repr

inductive ClassMember where
  | methodDefinition (key : MethodKey) (startByte stopByte : Nat) (src : String)
  | otherMember
deriving DecidableEq, Repr

inductive ExportedDecl where
  | functionDeclaration (ident? : Option String)
  | otherDecl
deriving DecidableEq, Repr

inductive TopLevelNode where
  | functionDeclaration (ident? : Option String) (startByte stopByte : Nat) (src : String)
  | variableDeclaration (declarations : List Declarator) (startByte stopByte : Nat)
      (src : String)
  | classDeclaration (body : List ClassMember) (startByte stopByte : Nat) (src : String)
  | exportNamedDeclaration (decl? : Option ExportedDecl) (startByte stopByte : Nat)
      (src : String)
  | otherNode
deriving DecidableEq, Repr

/-- The name of a function-like declaration per the source expression
functionNode.id?.name || makeAnonymous: JS || treats the empty string as
falsy, so an empty identifier also becomes the placeholder. -/
def anonName (ident? : Option String) : String :=
  match ident? with
  | some n => if n = "" then "anonymous" else n
  | none => "anonymous"

/-- One record of the functions array built by findFunctionsInFile; the
source fields are name, start and end (stop here, end is reserved). -/
structure FunctionInfo where
  name : String
  start : Nat
  stop : Nat
deriving DecidableEq, Repr

/-- The records findFunctionsInFile pushes for one top-level node: the
four if-blocks over the node type, in source order.  Variable and export
declarations use the whole statement's range; class methods use the
member's own range. -/
def nodeFunctions : TopLevelNode → List FunctionInfo
  | .functionDeclaration ident? s e _ => [⟨anonName ident?, s, e⟩]
  | .variableDeclaration decls s e _ =>
      decls.filterMap fun d =>
        match d.init, d.binding with
        | .functionExpression, .identifier n => some ⟨n, s, e⟩
        | .arrowFunctionExpression, .identifier n => some ⟨n, s, e⟩
        | _, _ => none
  | .classDeclaration body _ _ _ =>
      body.filterMap fun m =>
        match m with
        | .methodDefinition (.identifier n) ms me _ => some ⟨n, ms, me⟩
        | _ => none
  | .exportNamedDeclaration (some (.functionDeclaration ident?)) s e _ =>
      [⟨anonName ident?, s, e⟩]
  | .exportNamedDeclaration _ _ _ _ => []
  | .otherNode => []

/-- Model of findFunctionsInFile: traverse ast.body in order, pushing the
matched functions of each node. -/
def findFunctionsInFile : List TopLevelNode → List FunctionInfo
  | [] => []
  | n :: rest => nodeFunctions n ++ findFunctionsInFile rest

/-- Instrumented variant of nodeFunctions that also records the verbatim
source text of the node (or class member) each symbol came from. -/
def nodeSources : TopLevelNode → List (FunctionInfo × String)
  | .functionDeclaration ident? s e src => [(⟨anonName ident?, s, e⟩, src)]
  | .variableDeclaration decls s e src =>
      decls.filterMap fun d =>
        match d.init, d.binding with
        | .functionExpression, .identifier n => some (⟨n, s, e⟩, src)
        | .arrowFunctionExpression, .identifier n => some (⟨n, s, e⟩, src)
        | _, _ => none
  | .classDeclaration body _ _ _ =>
      body.filterMap fun m =>
        match m with
        | .methodDefinition (.identifier n) ms me msrc => some (⟨n, ms, me⟩, msrc)
        | _ => none
  | .exportNamedDeclaration (some (.functionDeclaration ident?)) s e src =>
      [(⟨anonName ident?, s, e⟩, src)]
  | .exportNamedDeclaration _ _ _ _ => []
  | .otherNode => []

def symbolSources : List TopLevelNode → List (FunctionInfo × String)
  | [] => []
  | n :: rest => nodeSources n ++ symbolSources rest

theorem nodeSources_fst (n : TopLevelNode) :
    (nodeSources n).map Prod.fst = nodeFunctions n := by
  cases n with
  | functionDeclaration ident? s e src => rfl
  | variableDeclaration decls s e src =>
    simp only [nodeSources, nodeFunctions, List.map_filterMap]
    congr 1
    funext d
    rcases d with ⟨b, i⟩
    cases i <;> cases b <;> rfl
  | classDeclaration body s e src =>
    simp only [nodeSources, nodeFunctions, List.map_filterMap]
    congr 1
    funext m
    rcases m with ⟨k, ms, me, msrc⟩ | _
    · cases k <;> rfl
    · rfl
  | exportNamedDeclaration decl? s e src =>
    rcases decl? with _ | d
    · rfl
    · cases d <;> rfl
  | otherNode => rfl

theorem symbolSources_fst (ast : List TopLevelNode) :
    (symbolSources ast).map Prod.fst = findFunctionsInFile ast := by
  induction ast with
  | nil => rfl
  | cons n rest ih =>
    simp only [symbolSources, findFunctionsInFile, List.map_append, ih, nodeSources_fst]

/-- Parser contract for one class member: the member's range slices back
to the member's verbatim source text. -/
def memberFaithful (content : String) : ClassMember → Bool
  | .methodDefinition _ ms me msrc => jsSubstring content ms me == msrc
  | .otherMember => true

/-- Parser contract for one top-level node. -/
def nodeFaithful (content : String) : TopLevelNode → Bool
  | .functionDeclaration _ s e src => jsSubstring content s e == src
  | .variableDeclaration _ s e src => jsSubstring content s e == src
  | .classDeclaration body s e src =>
      (jsSubstring content s e == src) && body.all (memberFaithful content)
  | .exportNamedDeclaration _ s e src => jsSubstring content s e == src
  | .otherNode => true

/-- Parser contract for a parsed file: every node's recorded range slices
the file content back to that node's verbatim source. -/
def astFaithful (content : String) (ast : List TopLevelNode) : Bool :=
  ast.all (nodeFaithful content)

structure ParseError where
  message : String
deriving DecidableEq, Repr

structure FunctionContent where
  minimal : String
  full : String
deriving DecidableEq, Repr

/-- Model of the FunctionData type of the source (second revision, with
startByte and endByte). -/
structure FunctionData where
  fileName : String
  functionName : String
  content : FunctionContent
  startByte : Nat
  endByte : Nat
deriving DecidableEq, Repr

/-- Model of extractFunctionRange: a linear find over the functions list
by name; undefined is returned as none. -/
def extractFunctionRange (ast : List TopLevelNode) (functionName : String) :
    Option (Nat × Nat) :=
  let functions := findFunctionsInFile ast
  match functions.find? (fun func => func.name == functionName) with
  | some func => some (func.start, func.stop)
  | none => none

/-- Model of getFunctionData: read the file (the content is passed
explicitly), parse it (the typescript-estree parse is a parameter; a
thrown SyntaxError is the error branch), extract the range, slice and
minimize.  A missing symbol yields ok none, the undefined of the source. -/
def getFunctionData (parse : String → Except ParseError (List TopLevelNode))
    (functionName fileName fileContent : String) :
    Except ParseError (Option FunctionData) :=
  match parse fileContent with
  | .error e => .error e
  | .ok ast =>
    match extractFunctionRange ast functionName with
    | some range =>
        let functionContent := jsSubstring fileContent range.1 range.2
        .ok (some
          { fileName := fileName
            functionName := functionName
            content := { minimal := minimize functionContent, full := functionContent }
            startByte := range.1
            endByte := range.2 })
    | none => .ok none

theorem nodeSources_faithful (content : String) (n : TopLevelNode)
    (h : nodeFaithful content n = true) :
    ∀ fs ∈ nodeSources n, jsSubstring content fs.1.start fs.1.stop = fs.2 := by
  intro fs hfs
  cases n with
  | functionDeclaration ident? s e src =>
    simp only [nodeSources, List.mem_singleton] at hfs
    subst hfs
    exact eq_of_beq h
  | variableDeclaration decls s e src =>
    simp only [nodeSources, List.mem_filterMap] at hfs
    obtain ⟨d, _, hd⟩ := hfs
    have hsrc : jsSubstring content s e = src := eq_of_beq h
    rcases d with ⟨b, i⟩
    cases i with
    | functionExpression =>
      cases b with
      | identifier nm =>
        simp only [Option.some.injEq] at hd
        rw [← hd]
        exact hsrc
      | otherPattern => simp at hd
    | arrowFunctionExpression =>
      cases b with
      | identifier nm =>
        simp only [Option.some.injEq] at hd
        rw [← hd]
        exact hsrc
      | otherPattern => simp at hd
    | otherInit => cases b <;> simp at hd
    | noInit => cases b <;> simp at hd
  | classDeclaration body s e src =>
    simp only [nodeFaithful, Bool.and_eq_true, List.all_eq_true] at h
    simp only [nodeSources, List.mem_filterMap] at hfs
    obtain ⟨m, hm, hfm⟩ := hfs
    rcases m with ⟨k, ms, me, msrc⟩ | _
    · cases k with
      | identifier nm =>
        simp at hfm
        rw [← hfm]
        exact eq_of_beq (h.2 _ hm)
      | otherKey => simp at hfm
    · simp at hfm
  | exportNamedDeclaration decl? s e src =>
    rcases decl? with _ | d
    · exact absurd hfs (List.not_mem_nil fs)
    · cases d with
      | functionDeclaration ident? =>
        simp only [nodeSources, List.mem_singleton] at hfs
        subst hfs
        exact eq_of_beq h
      | otherDecl => exact absurd hfs (List.not_mem_nil fs)
  | otherNode => exact absurd hfs (List.not_mem_nil fs)

/-- C5: for every supported top-level function-like declaration, the
extracted byte range slices the file content back to that declaration's
verbatim source (given the parser contract on node ranges), and the
FunctionContent returned by getFunctionData has full equal to the
substring of the content between the symbol's offsets and minimal equal
to minimize of that substring. -/
theorem extract_range_slices_verbatim (content : String) (ast : List TopLevelNode)
    (hwf : astFaithful content ast = true) :
    (∀ fs ∈ symbolSources ast, jsSubstring content fs.1.start fs.1.stop = fs.2)
    ∧ ∀ functionName fileName d,
        getFunctionData (fun _ => Except.ok ast) functionName fileName content =
          Except.ok (some d) →
        d.content.full = jsSubstring content d.startByte d.endByte
        ∧ d.content.minimal = minimize d.content.full := by
  constructor
  · simp only [astFaithful, List.all_eq_true] at hwf
    revert hwf
    induction ast with
    | nil => intro hwf fs hfs; exact absurd hfs (List.not_mem_nil fs)
    | cons n rest ih =>
      intro hwf fs hfs
      simp only [symbolSources, List.mem_append] at hfs
      rcases hfs with hh | hh
      · exact nodeSources_faithful content n (hwf n (by simp)) fs hh
      · exact ih (fun x hx => hwf x (List.mem_cons_of_mem n hx)) fs hh
  · intro functionName fileName d hd
    simp only [getFunctionData] at hd
    cases hr : extractFunctionRange ast functionName with
    | none => rw [hr] at hd; exact absurd (Except.ok.inj hd) (by simp)
    | some range =>
      rw [hr] at hd
      have := Except.ok.inj hd
      have hdd := Option.some.inj this
      rw [← hdd]
      exact ⟨rfl, rfl⟩

/-- Witness for the C5 theorem: a one-declaration file whose node range
does slice back to the declaration text. -/
theorem extract_range_slices_verbatim_witness :
    astFaithful "function foo(){return 1}"
      [TopLevelNode.functionDeclaration (some "foo") 0 24 "function foo(){return 1}"] = true
    ∧ ((∀ fs ∈ symbolSources
          [TopLevelNode.functionDeclaration (some "foo") 0 24 "function foo(){return 1}"],
        jsSubstring "function foo(){return 1}" fs.1.start fs.1.stop = fs.2)
      ∧ ∀ functionName fileName d,
          getFunctionData
            (fun _ => Except.ok
              [TopLevelNode.functionDeclaration (some "foo") 0 24 "function foo(){return 1}"])
            functionName fileName "function foo(){return 1}" = Except.ok (some d) →
          d.content.full = jsSubstring "function foo(){return 1}" d.startByte d.endByte
          ∧ d.content.minimal = minimize d.content.full) :=
  ⟨by decide,
    extract_range_slices_verbatim "function foo(){return 1}"
      [TopLevelNode.functionDeclaration (some "foo") 0 24 "function foo(){return 1}"]
      (by decide)⟩

theorem find?_eq_get {α : Type} (l : List α) (p : α → Bool) (i : Nat) (hi : i < l.length)
    (hp : p (l.get ⟨i, hi⟩) = true) (hbefore : ∀ x ∈ l.take i, p x = false) :
    l.find? p = some (l.get ⟨i, hi⟩) := by
  induction l generalizing i with
  | nil => exact absurd hi (by simp)
  | cons x xs ih =>
    cases i with
    | zero => exact List.find?_cons_of_pos _ hp
    | succ j =>
      have hx : p x = false := hbefore x (by simp [List.take_succ_cons])
      rw [List.find?_cons_of_neg _ (by simp [hx])]
      exact ih j (Nat.lt_of_succ_lt_succ hi) hp
        (fun y hy => hbefore y (by simp [List.take_succ_cons, hy]))

/-- C6: symbol lookup is a first-match linear scan: with several symbols
sharing a name the first in source order wins, and a missing name gives
an explicit absence (none) from extractFunctionRange and an ok none from
getFunctionData, with no error. -/
theorem lookup_first_match_and_absence (ast : List TopLevelNode)
    (n₁ n₂ fileName content : String) (i : Nat)
    (hi : i < (findFunctionsInFile ast).length)
    (hname : ((findFunctionsInFile ast).get ⟨i, hi⟩).name = n₁)
    (hbefore : ∀ f ∈ (findFunctionsInFile ast).take i, f.name ≠ n₁)
    (habsent : ∀ f ∈ findFunctionsInFile ast, f.name ≠ n₂) :
    extractFunctionRange ast n₁ =
      some (((findFunctionsInFile ast).get ⟨i, hi⟩).start,
        ((findFunctionsInFile ast).get ⟨i, hi⟩).stop)
    ∧ extractFunctionRange ast n₂ = none
    ∧ getFunctionData (fun _ => Except.ok ast) n₂ fileName content = Except.ok none := by
  have h1 : (findFunctionsInFile ast).find? (fun func => func.name == n₁) =
      some ((findFunctionsInFile ast).get ⟨i, hi⟩) := by
    refine find?_eq_get _ _ i hi (beq_iff_eq.mpr hname) ?_
    intro x hx
    simpa using hbefore x hx
  have h2 : (findFunctionsInFile ast).find? (fun func => func.name == n₂) = none := by
    rw [List.find?_eq_none]
    intro x hx
    simpa using habsent x hx
  have h3 : extractFunctionRange ast n₂ = none := by
    simp only [extractFunctionRange, h2]
  refine ⟨?_, h3, ?_⟩
  · simp only [extractFunctionRange, h1]
  · simp only [getFunctionData, h3]

/-- Sample file for the lookup witness: two declarations named foo and no
declaration named bar. -/
def sampleLookupAst : List TopLevelNode :=
  [TopLevelNode.functionDeclaration (some "foo") 0 10 "function a",
   TopLevelNode.functionDeclaration (some "foo") 11 25 "function b"]

/-- Witness for the C6 theorem at a concrete two-declaration file. -/
theorem lookup_first_match_and_absence_witness :
    (∀ f ∈ (findFunctionsInFile sampleLookupAst).take 0, f.name ≠ "foo")
    ∧ (∀ f ∈ findFunctionsInFile sampleLookupAst, f.name ≠ "bar")
    ∧ extractFunctionRange sampleLookupAst "foo" =
        some (((findFunctionsInFile sampleLookupAst).get
            ⟨0, by decide⟩).start,
          ((findFunctionsInFile sampleLookupAst).get ⟨0, by decide⟩).stop)
    ∧ extractFunctionRange sampleLookupAst "bar" = none
    ∧ getFunctionData (fun _ => Except.ok sampleLookupAst) "bar" "f.ts" "" =
        Except.ok none := by
  refine ⟨by decide, by decide, ?_, ?_, ?_⟩
  · exact (lookup_first_match_and_absence sampleLookupAst "foo" "bar" "f.ts" "" 0
      (by decide) (by decide) (by decide) (by decide)).1
  · exact (lookup_first_match_and_absence sampleLookupAst "foo" "bar" "f.ts" "" 0
      (by decide) (by decide) (by decide) (by decide)).2.1
  · exact (lookup_first_match_and_absence sampleLookupAst "foo" "bar" "f.ts" "" 0
      (by decide) (by decide) (by decide) (by decide)).2.2

/-- Glob tokens within one pattern segment: a literal character, the star
wildcard (any run of non-separator characters) or the question mark
(one such character). -/
inductive GlobTok where
  | lit (c : Char)
  | star
  | qmark
deriving DecidableEq, Repr

/-- A pattern segment: an ordinary glob segment or the double-star
segment that spans any number of directories. -/
inductive GlobSeg where
  | seg (toks : List GlobTok)
  | doubleStar
deriving DecidableEq, Repr

/-- Modelled from the spec: pattern matching is delegated to the
third-party ignore npm package, which is not part of this repository.
The spec describes the rules as glob-like gitignore patterns, with later
patterns able to negate earlier ones.  Per the gitignore format a rule
records negation (leading exclamation mark), directory-only scope
(trailing slash), root anchoring (a slash anywhere in the body) and the
slash-separated glob segments. -/
structure Rule where
  negated : Bool
  dirOnly : Bool
  anchored : Bool
  segs : List GlobSeg
deriving DecidableEq, Repr

def parseSeg (cs : List Char) : GlobSeg :=
  if cs = ['*', '*'] then GlobSeg.doubleStar
  else GlobSeg.seg (cs.map fun c =>
    if c = '*' then GlobTok.star else if c = '?' then GlobTok.qmark else GlobTok.lit c)

def parseRule (pattern : String) : Rule :=
  let cs0 := pattern.data
  let negated := cs0.head? == some '!'
  let cs1 := if negated then cs0.tail else cs0
  let dirOnly := cs1.getLast? == some '/'
  let cs2 := if dirOnly then cs1.dropLast else cs1
  let anchored := cs2.contains '/'
  let cs3 := if cs2.head? == some '/' then cs2.tail else cs2
  { negated := negated
    dirOnly := dirOnly
    anchored := anchored
    segs := (splitPred (fun c => c = '/') cs3).map parseSeg }

/-- Matching of one glob segment against one path segment; the star
spans any run of characters of the segment. -/
def segMatch : List GlobTok → List Char → Bool
  | [], cs => cs.isEmpty
  | GlobTok.lit a :: ts, cs =>
      match cs with
      | [] => false
      | c :: cs2 => a == c && segMatch ts cs2
  | GlobTok.qmark :: ts, cs =>
      match cs with
      | [] => false
      | _ :: cs2 => segMatch ts cs2
  | GlobTok.star :: ts, cs =>
      (List.range (cs.length + 1)).any fun i => segMatch ts (cs.drop i)

/-- Matching of the segment list of a rule against a whole list of path
segments; a trailing double-star requires at least one further segment
(everything inside the directory, not the directory itself), an inner
double-star spans zero or more segments. -/
def globMatch : List GlobSeg → List (List Char) → Bool
  | [], qs => qs.isEmpty
  | [GlobSeg.doubleStar], qs => !qs.isEmpty
  | GlobSeg.doubleStar :: ps, qs =>
      (List.range (qs.length + 1)).any fun i => globMatch ps (qs.drop i)
  | GlobSeg.seg ts :: ps, qs =>
      match qs with
      | [] => false
      | q :: qs2 => segMatch ts q && globMatch ps qs2

/-- A rule matches at a fixed starting point when some prefix of the
remaining segments matches its glob segments; anything deeper than the
matched portion is inside the matched entry and hence also matched.  A
directory-only rule needs the matched portion to be a directory: either
further segments follow, or the tested path is itself a directory. -/
def matchesFrom (r : Rule) (qs : List (List Char)) (isDir : Bool) : Bool :=
  (List.range (qs.length + 1)).any fun k =>
    globMatch r.segs (qs.take k) && (!r.dirOnly || decide (k < qs.length) || isDir)

/-- An anchored rule matches only from the root; an unanchored rule (no
slash in the pattern body) matches at any depth. -/
def ruleMatches (r : Rule) (segs : List String) (isDir : Bool) : Bool :=
  let qs := segs.map String.data
  if r.anchored then matchesFrom r qs isDir
  else (List.range (qs.length + 1)).any fun i => matchesFrom r (qs.drop i) isDir

/-- The ignore-instance state: the ordered rule list. -/
structure Ignore where
  rules : List Rule
deriving DecidableEq, Repr

/-- Model of ignore().add(patterns): parse and append the patterns in
order. -/
def Ignore.add (ig : Ignore) (patterns : List String) : Ignore :=
  ⟨ig.rules ++ patterns.map parseRule⟩

/-- Model of ig.ignores(path): the verdict of the last matching rule
(gitignore override ordering); no matching rule means not ignored.  The
path is represented by its segments plus the directory flag standing for
the trailing slash the source appends for directories. -/
def ignores (ig : Ignore) (segs : List String) (isDir : Bool) : Bool :=
  ig.rules.foldl (fun acc r => if ruleMatches r segs isDir then !r.negated else acc) false

/-- A directory listing in readdir order: a list of entries, each a
regular file with content or a subdirectory with its own listing.  The
listing is its own cons-list so that all recursion over the tree is
plain structural recursion. -/
inductive FS where
  | nil
  | consFile (name content : String) (rest : FS)
  | consDir (name : String) (entries : FS) (rest : FS)

/-- The sibling names of a listing, in order. -/
def listingNames : FS → List String
  | FS.nil => []
  | FS.consFile n _ rest => n :: listingNames rest
  | FS.consDir n _ rest => n :: listingNames rest

/-- Model of the traversal loop of getFileList (second revision): for
each entry compute the path relative to the original root; directories
are tested with a trailing slash and pruned without recursion when
ignored, files are tested plainly and appended when not ignored; one
ignore instance is threaded through the whole traversal. -/
def walkList (ig : Ignore) (rel : List String) : FS → List (List String)
  | FS.nil => []
  | FS.consFile name _ rest =>
      (if ignores ig (rel ++ [name]) false then []
       else [rel ++ [name]]) ++ walkList ig rel rest
  | FS.consDir name entries rest =>
      (if ignores ig (rel ++ [name]) true then []
       else walkList ig (rel ++ [name]) entries) ++ walkList ig rel rest

/-- All file paths of a listing, relative to the root, in traversal
order. -/
def filePaths (rel : List String) : FS → List (List String)
  | FS.nil => []
  | FS.consFile name _ rest => (rel ++ [name]) :: filePaths rel rest
  | FS.consDir name entries rest =>
      filePaths (rel ++ [name]) entries ++ filePaths rel rest

/-- Well-formedness of a listing as produced by a real filesystem:
sibling names are distinct, recursively. -/
def wfListB : FS → Bool
  | FS.nil => true
  | FS.consFile n _ rest => !((listingNames rest).contains n) && wfListB rest
  | FS.consDir n es rest =>
      !((listingNames rest).contains n) && wfListB es && wfListB rest

/-- Model of JS String.prototype.startsWith. -/
def charsStartWith : List Char → List Char → Bool
  | [], _ => true
  | _ :: _, [] => false
  | c :: cs, d :: ds => c == d && charsStartWith cs ds

def jsStartsWith (s pre : String) : Bool := charsStartWith pre.data s.data

/-- Model of JS String.prototype.endsWith. -/
def jsEndsWith (s suffix : String) : Bool :=
  charsStartWith suffix.data.reverse s.data.reverse

/-- The gitignore line processing of getFileList (second revision):
split the file on LF or CR, drop comment lines (leading hash), strip one
leading slash, keep everything else as patterns. -/
def gitignorePatterns (content : String) : List String :=
  ((splitLines content).filter fun line => !(jsStartsWith line "#")).map
    fun line => if jsStartsWith line "/" then String.mk line.data.tail else line

/-- The two permanent rules installed before traversal. -/
def permanentPatterns : List String := [".git/**", "node_modules/**"]

/-- The content of the .gitignore file at the traversal root, when one
exists (fs.existsSync plus readFile). -/
def rootGitignoreContent : FS → Option String
  | FS.nil => none
  | FS.consFile n c rest => if n = ".gitignore" then some c else rootGitignoreContent rest
  | FS.consDir _ _ rest => rootGitignoreContent rest

/-- The ignore instance getFileList builds at the root before walking:
the permanent rules, then the processed .gitignore lines if the file
exists. -/
def rootIgnore (entries : FS) : Ignore :=
  let ig := Ignore.add ⟨[]⟩ permanentPatterns
  match rootGitignoreContent entries with
  | some c => ig.add (gitignorePatterns c)
  | none => ig

/-- Model of getFileList (second revision) on a tree: root setup then
the recursive walk; paths are the path.relative(originalRoot, fullPath)
segment lists. -/
def getFileList (entries : FS) : List (List String) :=
  walkList (rootIgnore entries) [] entries

/-- The string form of the returned paths, segments joined by the
separator. -/
def getFileListPaths (entries : FS) : List String :=
  (getFileList entries).map (String.intercalate "/")

/-- Decidable equality for the Except results, used to evaluate the
embedded functions at concrete inputs. -/
instance {ε α : Type} [DecidableEq ε] [DecidableEq α] : DecidableEq (Except ε α) :=
  fun a b =>
    match a, b with
    | Except.error e, Except.error f =>
      if h : e = f then Decidable.isTrue (by rw [h])
      else Decidable.isFalse (fun hh => h (by injection hh))
    | Except.error _, Except.ok _ => Decidable.isFalse (fun hh => Except.noConfusion hh)
    | Except.ok _, Except.error _ => Decidable.isFalse (fun hh => Except.noConfusion hh)
    | Except.ok a, Except.ok b =>
      if h : a = b then Decidable.isTrue (by rw [h])
      else Decidable.isFalse (fun hh => h (by injection hh))

structure FunctionRef where
  functionName : String
  startByte : Nat
  endByte : Nat
deriving DecidableEq, Repr

structure FileRef where
  fileName : String
  functions : List FunctionRef
deriving DecidableEq, Repr

/-- The skip condition of the getFunctionList loop (second revision):
skip when a requested file name is set and differs, when the name ends
neither in .ts nor in .js, or when the entry is not a regular file. -/
def skipFile (fileName? : Option String) (isFile : String → Bool) (file : String) : Bool :=
  (match fileName? with
   | some actualFileName => actualFileName != file
   | none => false)
  || (!(jsEndsWith file ".ts") && !(jsEndsWith file ".js"))
  || !(isFile file)

/-- The loop of getFunctionList over the file list: parse each kept file
(a thrown SyntaxError aborts the whole call, the error branch) and push
a record of the file name with its functions. -/
def getFunctionListAux (parse : String → Except ParseError (List TopLevelNode))
    (readFile : String → String) (isFile : String → Bool) (fileName? : Option String) :
    List String → Except ParseError (List FileRef)
  | [] => .ok []
  | file :: rest =>
    if skipFile fileName? isFile file then
      getFunctionListAux parse readFile isFile fileName? rest
    else
      match parse (readFile file) with
      | .error e => .error e
      | .ok ast =>
        match getFunctionListAux parse readFile isFile fileName? rest with
        | .error e => .error e
        | .ok restRefs =>
            .ok
              ({ fileName := file
                 functions := (findFunctionsInFile ast).map fun func =>
                   { functionName := func.name, startByte := func.start,
                     endByte := func.stop } } :: restRefs)

/-- Model of getFunctionList (second revision): iterate over the
getFileList result; parse and readFile stand for the typescript-estree
parse and fs.promises.readFile, isFile for fs.statSync(file).isFile(). -/
def getFunctionList (parse : String → Except ParseError (List TopLevelNode))
    (readFile : String → String) (isFile : String → Bool)
    (entries : FS) (fileName? : Option String) :
    Except ParseError (List FileRef) :=
  getFunctionListAux parse readFile isFile fileName? (getFileListPaths entries)

theorem getFunctionListAux_error (parse : String → Except ParseError (List TopLevelNode))
    (readFile : String → String) (isFile : String → Bool) (fileName? : Option String)
    (files : List String) (file : String) (e : ParseError)
    (hmem : file ∈ files)
    (helig : skipFile fileName? isFile file = false)
    (herr : parse (readFile file) = Except.error e) :
    ∃ e2, getFunctionListAux parse readFile isFile fileName? files = Except.error e2 := by
  induction files with
  | nil => exact absurd hmem (List.not_mem_nil file)
  | cons f rest ih =>
    rcases List.mem_cons.mp hmem with hf | hf
    · subst hf
      refine ⟨e, ?_⟩
      simp only [getFunctionListAux, helig, if_false, Bool.false_eq_true, herr]
    · obtain ⟨e2, he2⟩ := ih hf
      by_cases hskip : skipFile fileName? isFile f = true
      · exact ⟨e2, by simp only [getFunctionListAux, hskip, if_true, he2]⟩
      · rw [Bool.not_eq_true] at hskip
        cases hp : parse (readFile f) with
        | error e3 =>
          exact ⟨e3, by simp only [getFunctionListAux, hskip, Bool.false_eq_true,
            if_false, hp]⟩
        | ok ast =>
          exact ⟨e2, by simp only [getFunctionListAux, hskip, Bool.false_eq_true,
            if_false, hp, he2]⟩

/-- C7: an unparsable file makes getFunctionList surface the parse error
rather than an ok result, and getFunctionData propagates the parse error
of its file directly; an unparsable file can never be confused with a
parsable file holding no functions. -/
theorem syntax_error_propagates (parse : String → Except ParseError (List TopLevelNode))
    (readFile : String → String) (isFile : String → Bool)
    (entries : FS) (fileName? : Option String) (file : String) (e : ParseError)
    (hmem : file ∈ getFileListPaths entries)
    (helig : skipFile fileName? isFile file = false)
    (herr : parse (readFile file) = Except.error e) :
    (∃ e2, getFunctionList parse readFile isFile entries fileName? = Except.error e2)
    ∧ ∀ functionName fileName content, parse content = Except.error e →
        getFunctionData parse functionName fileName content = Except.error e := by
  constructor
  · exact getFunctionListAux_error parse readFile isFile fileName? _ file e hmem helig herr
  · intro functionName fileName content hc
    simp only [getFunctionData, hc]

/-- Sample unparsable file for the C7 witness. -/
def badParse : String → Except ParseError (List TopLevelNode) :=
  fun s => if s = "(" then Except.error ⟨"Unexpected token"⟩ else Except.ok []

/-- Witness for the C7 theorem: one .ts file whose parse fails. -/
theorem syntax_error_propagates_witness :
    "bad.ts" ∈ getFileListPaths (FS.consFile "bad.ts" "(" FS.nil)
    ∧ skipFile none (fun _ => true) "bad.ts" = false
    ∧ badParse ((fun _ => "(") "bad.ts") = Except.error ⟨"Unexpected token"⟩
    ∧ ((∃ e2, getFunctionList badParse (fun _ => "(") (fun _ => true)
          (FS.consFile "bad.ts" "(" FS.nil) none = Except.error e2)
      ∧ ∀ functionName fileName content,
          badParse content = Except.error ⟨"Unexpected token"⟩ →
          getFunctionData badParse functionName fileName content =
            Except.error ⟨"Unexpected token"⟩) :=
  ⟨by decide, by decide, by decide,
    syntax_error_propagates badParse (fun _ => "(") (fun _ => true)
      (FS.consFile "bad.ts" "(" FS.nil) none "bad.ts" ⟨"Unexpected token"⟩
      (by decide) (by decide) (by decide)⟩

theorem getFunctionListAux_suffix (parse : String → Except ParseError (List TopLevelNode))
    (readFile : String → String) (isFile : String → Bool) (fileName? : Option String)
    (files : List String) (refs : List FileRef)
    (hok : getFunctionListAux parse readFile isFile fileName? files = Except.ok refs) :
    ∀ fr ∈ refs, jsEndsWith fr.fileName ".ts" = true ∨ jsEndsWith fr.fileName ".js" = true := by
  induction files generalizing refs with
  | nil =>
    simp only [getFunctionListAux] at hok
    rw [← Except.ok.inj hok]
    intro fr hfr
    exact absurd hfr (List.not_mem_nil fr)
  | cons f rest ih =>
    simp only [getFunctionListAux] at hok
    by_cases hskip : skipFile fileName? isFile f = true
    · rw [if_pos hskip] at hok
      exact ih refs hok
    · rw [Bool.not_eq_true] at hskip
      rw [if_neg (by simp [hskip])] at hok
      cases hp : parse (readFile f) with
      | error e => rw [hp] at hok; exact absurd hok (by simp)
      | ok ast =>
        rw [hp] at hok
        cases hr : getFunctionListAux parse readFile isFile fileName? rest with
        | error e => rw [hr] at hok; exact absurd hok (by simp)
        | ok restRefs =>
          rw [hr] at hok
          have hrefs := Except.ok.inj hok
          intro fr hfr
          rw [← hrefs] at hfr
          rcases List.mem_cons.mp hfr with hh | hh
          · subst hh
            simp only []
            have : (!(jsEndsWith f ".ts") && !(jsEndsWith f ".js")) = false := by
              rcases Bool.or_eq_false_iff.mp
                (Bool.or_eq_false_iff.mp hskip).1 with ⟨_, hb⟩
              exact hb
            rcases Bool.and_eq_false_iff.mp this with hb | hb
            · left; simpa using hb
            · right; simpa using hb
          · exact ih restRefs hr fr hh

/-- C10: getFunctionList silently restricts extraction to .ts and .js
files: every emitted record is for a file whose name ends in .ts or .js,
so a traversed file without such a suffix gets no record and no error. -/
theorem function_list_only_ts_js (parse : String → Except ParseError (List TopLevelNode))
    (readFile : String → String) (isFile : String → Bool)
    (entries : FS) (fileName? : Option String) (refs : List FileRef)
    (hok : getFunctionList parse readFile isFile entries fileName? = Except.ok refs) :
    (∀ fr ∈ refs, jsEndsWith fr.fileName ".ts" = true ∨ jsEndsWith fr.fileName ".js" = true)
    ∧ ∀ file ∈ getFileListPaths entries,
        jsEndsWith file ".ts" = false → jsEndsWith file ".js" = false →
        file ∉ refs.map FileRef.fileName := by
  have h1 := getFunctionListAux_suffix parse readFile isFile fileName? _ refs hok
  refine ⟨h1, ?_⟩
  intro file _ hts hjs hmem
  obtain ⟨fr, hfr, hname⟩ := List.mem_map.mp hmem
  rcases h1 fr hfr with hh | hh
  · rw [hname] at hh; rw [hts] at hh; exact Bool.noConfusion hh
  · rw [hname] at hh; rw [hjs] at hh; exact Bool.noConfusion hh

/-- Witness for the C10 theorem: a markdown file is traversed but gets
no record, a TypeScript file gets one. -/
theorem function_list_only_ts_js_witness :
    getFunctionList (fun _ => Except.ok []) (fun _ => "") (fun _ => true)
      (FS.consFile "a.md" "x" (FS.consFile "b.ts" "" FS.nil)) none =
        Except.ok [{ fileName := "b.ts", functions := [] }]
    ∧ ((∀ fr ∈ [({ fileName := "b.ts", functions := [] } : FileRef)],
          jsEndsWith fr.fileName ".ts" = true ∨ jsEndsWith fr.fileName ".js" = true)
      ∧ ∀ file ∈ getFileListPaths (FS.consFile "a.md" "x" (FS.consFile "b.ts" "" FS.nil)),
          jsEndsWith file ".ts" = false → jsEndsWith file ".js" = false →
          file ∉ [({ fileName := "b.ts", functions := [] } : FileRef)].map FileRef.fileName) :=
  ⟨by decide,
    function_list_only_ts_js (fun _ => Except.ok []) (fun _ => "") (fun _ => true)
      (FS.consFile "a.md" "x" (FS.consFile "b.ts" "" FS.nil)) none
      [{ fileName := "b.ts", functions := [] }] (by decide)⟩

theorem take_append_le {α : Type} (l m : List α) (k : Nat) (h : k ≤ l.length) :
    (l ++ m).take k = l.take k := by
  induction l generalizing k with
  | nil =>
    have : k = 0 := Nat.le_zero.mp h
    subst this
    rfl
  | cons x xs ih =>
    cases k with
    | zero => rfl
    | succ j =>
      simp only [List.cons_append, List.take_succ_cons]
      rw [ih j (Nat.le_of_succ_le_succ h)]

theorem drop_append_le {α : Type} (l m : List α) (i : Nat) (h : i ≤ l.length) :
    (l ++ m).drop i = l.drop i ++ m := by
  induction l generalizing i with
  | nil =>
    have : i = 0 := Nat.le_zero.mp h
    subst this
    rfl
  | cons x xs ih =>
    cases i with
    | zero => rfl
    | succ j =>
      simp only [List.cons_append, List.drop_succ_cons]
      exact ih j (Nat.le_of_succ_le_succ h)

/-- A true ignore verdict always comes from some matching non-negated
rule (the last matching rule has a positive verdict). -/
theorem ignores_true_positive_rule (rules : List Rule) (acc : Bool)
    (segs : List String) (isDir : Bool)
    (h : rules.foldl
        (fun acc r => if ruleMatches r segs isDir then !r.negated else acc) acc = true) :
    acc = true ∨ ∃ r ∈ rules, r.negated = false ∧ ruleMatches r segs isDir = true := by
  induction rules generalizing acc with
  | nil => exact Or.inl h
  | cons r rs ih =>
    rcases ih _ h with hacc | ⟨r2, hr2, hneg, hm⟩
    · have hacc2 : (if ruleMatches r segs isDir then !r.negated else acc) = true := hacc
      by_cases hm : ruleMatches r segs isDir = true
      · rw [if_pos hm] at hacc2
        exact Or.inr ⟨r, by simp, by simpa using hacc2, hm⟩
      · rw [if_neg hm] at hacc2
        exact Or.inl hacc2
    · exact Or.inr ⟨r2, by simp [hr2], hneg, hm⟩

/-- Matching a directory extends to everything below it: if a rule
matches a path taken as a directory, it also matches every strictly
longer path, whatever its kind. -/
theorem matchesFrom_mono (r : Rule) (qs ex : List (List Char)) (b : Bool)
    (hex : ex ≠ []) (h : matchesFrom r qs true = true) :
    matchesFrom r (qs ++ ex) b = true := by
  rcases List.any_eq_true.mp h with ⟨k, hk, hbody⟩
  have hklt : k < qs.length + 1 := List.mem_range.mp hk
  have hkle : k ≤ qs.length := Nat.lt_succ_iff.mp hklt
  rw [Bool.and_eq_true] at hbody
  obtain ⟨hglob, _⟩ := hbody
  refine List.any_eq_true.mpr ⟨k, List.mem_range.mpr ?_, ?_⟩
  · simp only [List.length_append]
    omega
  · rw [take_append_le qs ex k hkle, Bool.and_eq_true]
    refine ⟨hglob, ?_⟩
    have hexlen : 0 < ex.length := List.length_pos.mpr hex
    have hklt2 : k < qs.length + ex.length := by omega
    simp [hklt2]

theorem ruleMatches_mono (r : Rule) (segs ext : List String) (b : Bool)
    (hext : ext ≠ []) (h : ruleMatches r segs true = true) :
    ruleMatches r (segs ++ ext) b = true := by
  have hexmap : (ext.map String.data) ≠ [] := by
    simpa using hext
  simp only [ruleMatches, List.map_append] at h ⊢
  by_cases ha : r.anchored
  · rw [if_pos ha] at h ⊢
    exact matchesFrom_mono r _ _ b hexmap h
  · rw [if_neg ha] at h ⊢
    rcases List.any_eq_true.mp h with ⟨i, hi, hbody⟩
    have hile : i ≤ (segs.map String.data).length := Nat.lt_succ_iff.mp (List.mem_range.mp hi)
    refine List.any_eq_true.mpr ⟨i, List.mem_range.mpr ?_, ?_⟩
    · simp only [List.length_append]
      have := List.mem_range.mp hi
      omega
    · rw [drop_append_le _ _ i hile]
      exact matchesFrom_mono r _ _ b hexmap hbody

/-- The ignore verdict of a rule list ending in a negation matching the
path is false, whatever came before. -/
theorem ignores_last_negation (pre : List Rule) (rn : Rule)
    (segs : List String) (isDir : Bool)
    (hneg : rn.negated = true) (hm : ruleMatches rn segs isDir = true) :
    ignores ⟨pre ++ [rn]⟩ segs isDir = false := by
  simp only [ignores, List.foldl_append, List.foldl_cons, List.foldl_nil]
  rw [if_pos hm, hneg]
  rfl

/-- Every path returned by the walk extends the current relative path by
at least one segment. -/
theorem walkList_take_rel (ig : Ignore) (t : FS) (rel q : List String)
    (hq : q ∈ walkList ig rel t) :
    q.take rel.length = rel ∧ rel.length < q.length := by
  induction t generalizing rel with
  | nil => exact absurd hq (List.not_mem_nil q)
  | consFile n c rest ih =>
    rw [walkList] at hq
    rcases List.mem_append.mp hq with hl | hr
    · have : q = rel ++ [n] := by
        by_cases hig : ignores ig (rel ++ [n]) false = true
        · rw [if_pos hig] at hl; exact absurd hl (List.not_mem_nil q)
        · rw [if_neg hig] at hl; simpa using hl
      subst this
      constructor
      · exact List.take_left rel [n]
      · simp
    · exact ih rel hr
  | consDir n es rest ihE ihR =>
    rw [walkList] at hq
    rcases List.mem_append.mp hq with hl | hr
    · by_cases hig : ignores ig (rel ++ [n]) true = true
      · rw [if_pos hig] at hl; exact absurd hl (List.not_mem_nil q)
      · rw [if_neg hig] at hl
        obtain ⟨ht, hlen⟩ := ihE (rel ++ [n]) hl
        have hlen2 : rel.length < q.length := by
          simp only [List.length_append, List.length_singleton] at hlen
          omega
        refine ⟨?_, hlen2⟩
        have : q.take rel.length = (q.take (rel ++ [n]).length).take rel.length := by
          rw [List.take_take]
          congr 1
          simp only [List.length_append, List.length_singleton]
          omega
        rw [this, ht]
        exact List.take_left rel [n]
    · exact ihR rel hr

/-- Every path returned by the walk is not ignored as a file. -/
theorem walkList_not_ignored (ig : Ignore) (t : FS) (rel q : List String)
    (hq : q ∈ walkList ig rel t) :
    ignores ig q false = false := by
  induction t generalizing rel with
  | nil => exact absurd hq (List.not_mem_nil q)
  | consFile n c rest ih =>
    rw [walkList] at hq
    rcases List.mem_append.mp hq with hl | hr
    · by_cases hig : ignores ig (rel ++ [n]) false = true
      · rw [if_pos hig] at hl; exact absurd hl (List.not_mem_nil q)
      · rw [if_neg hig] at hl
        have : q = rel ++ [n] := by simpa using hl
        subst this
        simpa using hig
    · exact ih rel hr
  | consDir n es rest ihE ihR =>
    rw [walkList] at hq
    rcases List.mem_append.mp hq with hl | hr
    · by_cases hig : ignores ig (rel ++ [n]) true = true
      · rw [if_pos hig] at hl; exact absurd hl (List.not_mem_nil q)
      · rw [if_neg hig] at hl
        exact ihE (rel ++ [n]) hl
    · exact ihR rel hr

/-- No strict ancestor of a returned path, below the relative root, is
ignored as a directory. -/
theorem walkList_ancestors_not_ignored (ig : Ignore) (t : FS) (rel q : List String)
    (hq : q ∈ walkList ig rel t) :
    ∀ k, rel.length < k → k < q.length → ignores ig (q.take k) true = false := by
  induction t generalizing rel with
  | nil => exact absurd hq (List.not_mem_nil q)
  | consFile n c rest ih =>
    rw [walkList] at hq
    rcases List.mem_append.mp hq with hl | hr
    · have : q = rel ++ [n] := by
        by_cases hig : ignores ig (rel ++ [n]) false = true
        · rw [if_pos hig] at hl; exact absurd hl (List.not_mem_nil q)
        · rw [if_neg hig] at hl; simpa using hl
      subst this
      intro k hk1 hk2
      simp only [List.length_append, List.length_singleton] at hk2
      omega
    · exact ih rel hr
  | consDir n es rest ihE ihR =>
    rw [walkList] at hq
    rcases List.mem_append.mp hq with hl | hr
    · by_cases hig : ignores ig (rel ++ [n]) true = true
      · rw [if_pos hig] at hl; exact absurd hl (List.not_mem_nil q)
      · rw [if_neg hig] at hl
        obtain ⟨ht, hlen⟩ := walkList_take_rel ig es (rel ++ [n]) q hl
        intro k hk1 hk2
        have hrel1 : (rel ++ [n]).length = rel.length + 1 := by simp
        rcases Nat.eq_or_lt_of_le (Nat.succ_le_of_lt hk1) with hcase | hcase
        · have hkval : k = rel.length + 1 := by omega
          have : q.take k = rel ++ [n] := by rw [hkval, ← hrel1, ht]
          rw [this]
          simpa using hig
        · exact ihE (rel ++ [n]) hl k (by rw [hrel1]; omega) hk2
    · exact ihR rel hr

/-- Every path the walk returns is a file path of the listing. -/
theorem walkList_subset_filePaths (ig : Ignore) (t : FS) (rel q : List String)
    (hq : q ∈ walkList ig rel t) :
    q ∈ filePaths rel t := by
  induction t generalizing rel with
  | nil => exact absurd hq (List.not_mem_nil q)
  | consFile n c rest ih =>
    rw [walkList] at hq
    rw [filePaths]
    rcases List.mem_append.mp hq with hl | hr
    · have : q = rel ++ [n] := by
        by_cases hig : ignores ig (rel ++ [n]) false = true
        · rw [if_pos hig] at hl; exact absurd hl (List.not_mem_nil q)
        · rw [if_neg hig] at hl; simpa using hl
      simp [this]
    · exact List.mem_cons_of_mem _ (ih rel hr)
  | consDir n es rest ihE ihR =>
    rw [walkList] at hq
    rw [filePaths]
    rcases List.mem_append.mp hq with hl | hr
    · by_cases hig : ignores ig (rel ++ [n]) true = true
      · rw [if_pos hig] at hl; exact absurd hl (List.not_mem_nil q)
      · rw [if_neg hig] at hl
        exact List.mem_append.mpr (Or.inl (ihE (rel ++ [n]) hl))
    · exact List.mem_append.mpr (Or.inr (ihR rel hr))

/-- Every file path of a listing extends the relative root by at least
one segment. -/
theorem filePaths_take_rel (t : FS) (rel p : List String)
    (hp : p ∈ filePaths rel t) :
    p.take rel.length = rel ∧ rel.length < p.length := by
  induction t generalizing rel with
  | nil => exact absurd hp (List.not_mem_nil p)
  | consFile n c rest ih =>
    rw [filePaths] at hp
    rcases List.mem_cons.mp hp with hl | hr
    · subst hl
      exact ⟨List.take_left rel [n], by simp⟩
    · exact ih rel hr
  | consDir n es rest ihE ihR =>
    rw [filePaths] at hp
    rcases List.mem_append.mp hp with hl | hr
    · obtain ⟨ht, hlen⟩ := ihE (rel ++ [n]) hl
      have hlen2 : rel.length < p.length := by
        simp only [List.length_append, List.length_singleton] at hlen
        omega
      refine ⟨?_, hlen2⟩
      have : p.take rel.length = (p.take (rel ++ [n]).length).take rel.length := by
        rw [List.take_take]
        congr 1
        simp only [List.length_append, List.length_singleton]
        omega
      rw [this, ht]
      exact List.take_left rel [n]
    · exact ihR rel hr

/-- Completeness of the walk: a file path whose own check and all of
whose strict ancestors below the root pass the ignore filter is
returned. -/
theorem walkList_complete (ig : Ignore) (t : FS) (rel p : List String)
    (hp : p ∈ filePaths rel t)
    (hfile : ignores ig p false = false)
    (hanc : ∀ k, rel.length < k → k < p.length → ignores ig (p.take k) true = false) :
    p ∈ walkList ig rel t := by
  induction t generalizing rel with
  | nil => exact absurd hp (List.not_mem_nil p)
  | consFile n c rest ih =>
    rw [filePaths] at hp
    rw [walkList]
    rcases List.mem_cons.mp hp with hl | hr
    · subst hl
      rw [if_neg (by simp [hfile])]
      exact List.mem_append.mpr (Or.inl (by simp))
    · exact List.mem_append.mpr (Or.inr (ih rel hr hanc))
  | consDir n es rest ihE ihR =>
    rw [filePaths] at hp
    rw [walkList]
    rcases List.mem_append.mp hp with hl | hr
    · obtain ⟨ht, hlen⟩ := filePaths_take_rel es (rel ++ [n]) p hl
      have hlenrel : (rel ++ [n]).length = rel.length + 1 := by simp
      have hig : ignores ig (rel ++ [n]) true = false := by
        have := hanc (rel.length + 1) (by omega) (by omega)
        rw [← hlenrel, ht] at this
        exact this
      rw [if_neg (by simp [hig])]
      refine List.mem_append.mpr (Or.inl (ihE (rel ++ [n]) hl ?_))
      intro k hk1 hk2
      exact hanc k (by omega) hk2
    · exact List.mem_append.mpr (Or.inr (ihR rel hr hanc))

/-- The first new segment of a returned path is the name of one of the
listing's entries. -/
theorem walkList_head_name (ig : Ignore) (t : FS) (rel q : List String)
    (hq : q ∈ walkList ig rel t) :
    ∃ nm ∈ listingNames t, q.take (rel.length + 1) = rel ++ [nm] := by
  induction t generalizing rel with
  | nil => exact absurd hq (List.not_mem_nil q)
  | consFile n c rest ih =>
    rw [walkList] at hq
    rcases List.mem_append.mp hq with hl | hr
    · have : q = rel ++ [n] := by
        by_cases hig : ignores ig (rel ++ [n]) false = true
        · rw [if_pos hig] at hl; exact absurd hl (List.not_mem_nil q)
        · rw [if_neg hig] at hl; simpa using hl
      subst this
      refine ⟨n, by simp [listingNames], ?_⟩
      have : (rel ++ [n]).length = rel.length + 1 := by simp
      rw [← this, List.take_length]
    · obtain ⟨nm, hnm, hteq⟩ := ih rel hr
      exact ⟨nm, by simp [listingNames, hnm], hteq⟩
  | consDir n es rest ihE ihR =>
    rw [walkList] at hq
    rcases List.mem_append.mp hq with hl | hr
    · by_cases hig : ignores ig (rel ++ [n]) true = true
      · rw [if_pos hig] at hl; exact absurd hl (List.not_mem_nil q)
      · rw [if_neg hig] at hl
        obtain ⟨ht, _⟩ := walkList_take_rel ig es (rel ++ [n]) q hl
        refine ⟨n, by simp [listingNames], ?_⟩
        have : (rel ++ [n]).length = rel.length + 1 := by simp
        rw [← this, ht]
    · obtain ⟨nm, hnm, hteq⟩ := ihR rel hr
      exact ⟨nm, by simp [listingNames, hnm], hteq⟩

/-- With distinct sibling names at every level, the walk returns
pairwise distinct paths. -/
theorem walkList_nodup (ig : Ignore) (t : FS) (rel : List String)
    (hwf : wfListB t = true) :
    (walkList ig rel t).Nodup := by
  induction t generalizing rel with
  | nil => exact List.nodup_nil
  | consFile n c rest ih =>
    rw [wfListB, Bool.and_eq_true] at hwf
    obtain ⟨hn, hrest⟩ := hwf
    rw [walkList]
    rw [List.nodup_append]
    refine ⟨?_, ih rel hrest, ?_⟩
    · by_cases hig : ignores ig (rel ++ [n]) false = true
      · rw [if_pos hig]; exact List.nodup_nil
      · rw [if_neg hig]; exact List.nodup_singleton _
    · intro q hq hq2
      have hqeq : q = rel ++ [n] := by
        by_cases hig : ignores ig (rel ++ [n]) false = true
        · rw [if_pos hig] at hq; exact absurd hq (List.not_mem_nil q)
        · rw [if_neg hig] at hq; simpa using hq
      subst hqeq
      obtain ⟨nm, hnm, hteq⟩ := walkList_head_name ig rest rel _ hq2
      have hlen : (rel ++ [n]).length = rel.length + 1 := by simp
      rw [← hlen, List.take_length] at hteq
      have hnnm : n = nm := by
        have h2 := List.append_cancel_left hteq
        exact congrArg (fun l => l.headD "") h2
      subst hnnm
      simp only [Bool.not_eq_true'] at hn
      have hnot : ¬ n ∈ listingNames rest := by
        intro hmem
        have hc : (listingNames rest).contains n = true := by
          rw [List.contains_eq_any_beq]
          exact List.any_eq_true.mpr ⟨n, hmem, by simp⟩
        rw [hc] at hn
        exact Bool.noConfusion hn
      exact hnot hnm
  | consDir n es rest ihE ihR =>
    rw [wfListB, Bool.and_eq_true, Bool.and_eq_true] at hwf
    obtain ⟨⟨hn, hes⟩, hrest⟩ := hwf
    rw [walkList]
    rw [List.nodup_append]
    refine ⟨?_, ihR rel hrest, ?_⟩
    · by_cases hig : ignores ig (rel ++ [n]) true = true
      · rw [if_pos hig]; exact List.nodup_nil
      · rw [if_neg hig]; exact ihE (rel ++ [n]) hes
    · intro q hq hq2
      have hql : q.take (rel.length + 1) = rel ++ [n] := by
        by_cases hig : ignores ig (rel ++ [n]) true = true
        · rw [if_pos hig] at hq; exact absurd hq (List.not_mem_nil q)
        · rw [if_neg hig] at hq
          obtain ⟨ht, _⟩ := walkList_take_rel ig es (rel ++ [n]) q hq
          have hlen : (rel ++ [n]).length = rel.length + 1 := by simp
          rw [← hlen]
          exact ht
      obtain ⟨nm, hnm, hteq⟩ := walkList_head_name ig rest rel q hq2
      rw [hql] at hteq
      have hnnm : n = nm := by
        have h2 := List.append_cancel_left hteq
        exact congrArg (fun l => l.headD "") h2
      subst hnnm
      simp only [Bool.not_eq_true'] at hn
      have hnot : ¬ n ∈ listingNames rest := by
        intro hmem
        have hc : (listingNames rest).contains n = true := by
          rw [List.contains_eq_any_beq]
          exact List.any_eq_true.mpr ⟨n, hmem, by simp⟩
        rw [hc] at hn
        exact Bool.noConfusion hn
      exact hnot hnm

theorem count_one_of_nodup_mem {α : Type} [BEq α] [LawfulBEq α] (l : List α) (a : α)
    (hn : l.Nodup) (hm : a ∈ l) : l.count a = 1 := by
  induction l with
  | nil => exact absurd hm (List.not_mem_nil a)
  | cons x xs ih =>
    rw [List.count_cons]
    rcases List.mem_cons.mp hm with hax | hax
    · subst hax
      have hnx : a ∉ xs := (List.nodup_cons.mp hn).1
      rw [List.count_eq_zero.mpr hnx]
      simp
    · rw [ih (List.nodup_cons.mp hn).2 hax]
      have hne : (x == a) = false :=
        beq_eq_false_iff_ne.mpr (fun he => (List.nodup_cons.mp hn).1 (he ▸ hax))
      rw [hne]
      simp

/-- C1: for every file under the traversal root matched by no exclusion
rule, getFileList includes its path exactly once; and every directory
path with a positive ignore verdict is pruned whole: no returned path
lies strictly below it. -/
theorem getFileList_exact_once_and_prunes (t : FS) (p : List String)
    (hwf : wfListB t = true)
    (hp : p ∈ filePaths [] t)
    (hnomatch : ∀ r ∈ (rootIgnore t).rules, r.negated = false →
        ruleMatches r p false = false) :
    (getFileList t).count p = 1
    ∧ ∀ d q, ignores (rootIgnore t) d true = true → d ≠ [] →
        q ∈ getFileList t → q.take d.length = d → ¬ d.length < q.length := by
  have hfile : ignores (rootIgnore t) p false = false := by
    cases hcase : ignores (rootIgnore t) p false with
    | false => rfl
    | true =>
      rcases ignores_true_positive_rule (rootIgnore t).rules false p false hcase with
        hacc | ⟨r, hr, hneg, hm⟩
      · exact Bool.noConfusion hacc
      · rw [hnomatch r hr hneg] at hm
        exact Bool.noConfusion hm
  have hanc : ∀ k, (0 : Nat) < k → k < p.length →
      ignores (rootIgnore t) (p.take k) true = false := by
    intro k hk1 hk2
    cases hcase : ignores (rootIgnore t) (p.take k) true with
    | false => rfl
    | true =>
      rcases ignores_true_positive_rule (rootIgnore t).rules false (p.take k) true hcase with
        hacc | ⟨r, hr, hneg, hm⟩
      · exact Bool.noConfusion hacc
      · have hne : p.drop k ≠ [] := by
          intro hnil
          have hlen := congrArg List.length hnil
          rw [List.length_drop] at hlen
          simp only [List.length_nil] at hlen
          omega
        have hm2 := ruleMatches_mono r (p.take k) (p.drop k) false hne hm
        rw [List.take_append_drop] at hm2
        rw [hnomatch r hr hneg] at hm2
        exact Bool.noConfusion hm2
  have hmem : p ∈ walkList (rootIgnore t) [] t :=
    walkList_complete (rootIgnore t) t [] p hp hfile (fun k hk1 hk2 => hanc k hk1 hk2)
  refine ⟨count_one_of_nodup_mem _ p (walkList_nodup (rootIgnore t) t [] hwf) hmem, ?_⟩
  intro d q hig hdne hq htake hlt
  have h0 : (0 : Nat) < d.length := List.length_pos.mpr hdne
  have := walkList_ancestors_not_ignored (rootIgnore t) t [] q hq d.length h0 hlt
  rw [htake] at this
  rw [this] at hig
  exact Bool.noConfusion hig

/-- The sample tree for the C1 witness. -/
def c1Tree : FS :=
  FS.consFile "a.ts" "" (FS.consDir "src" (FS.consFile "b.ts" "" FS.nil) FS.nil)

/-- Witness for the C1 theorem on a concrete two-level tree. -/
theorem getFileList_exact_once_and_prunes_witness :
    wfListB c1Tree = true
    ∧ ["src", "b.ts"] ∈ filePaths [] c1Tree
    ∧ (∀ r ∈ (rootIgnore c1Tree).rules, r.negated = false →
        ruleMatches r ["src", "b.ts"] false = false)
    ∧ ((getFileList c1Tree).count ["src", "b.ts"] = 1
      ∧ ∀ d q, ignores (rootIgnore c1Tree) d true = true → d ≠ [] →
          q ∈ getFileList c1Tree → q.take d.length = d → ¬ d.length < q.length) :=
  ⟨by decide, by decide, by decide,
    getFileList_exact_once_and_prunes c1Tree ["src", "b.ts"]
      (by decide) (by decide) (by decide)⟩

/-- C2 counterexample: the permanent rules are root-anchored gitignore
patterns, so a dependency-cache directory nested one level deeper is NOT
excluded: its file is returned although its path has a node_modules
segment. -/
theorem permanent_rules_not_at_any_depth :
    getFileList (FS.consDir "sub"
        (FS.consDir "node_modules" (FS.consFile "x.js" "" FS.nil) FS.nil) FS.nil)
      = [["sub", "node_modules", "x.js"]]
    ∧ "node_modules" ∈ ["sub", "node_modules", "x.js"] := by decide

/-- An anchored rule of the shape name/doubleStar matches every path
that starts with a matching first segment followed by at least one more
segment. -/
theorem anchored_dirstar_matches (toks : List GlobTok) (s1 s2 : String)
    (rest : List String) (hseg : segMatch toks s1.data = true) :
    ruleMatches ⟨false, false, true, [GlobSeg.seg toks, GlobSeg.doubleStar]⟩
      (s1 :: s2 :: rest) false = true := by
  simp only [ruleMatches]
  rw [if_true]
  refine List.any_eq_true.mpr ⟨2, List.mem_range.mpr ?_, ?_⟩
  · simp only [List.length_map, List.length_cons]
    omega
  · simp only [List.map_cons, List.take_succ_cons, List.take_zero]
    simp [globMatch, hseg]

/-- C2 amended: getFileList always installs the two permanent rules
first; with no .gitignore at the root, no returned path descends into a
root-level .git or node_modules directory (deeper occurrences are not
covered by the permanent rules, see the counterexample). -/
theorem permanent_rules_installed_and_root_excluded (t : FS)
    (hng : rootGitignoreContent t = none) :
    (∀ u : FS, (rootIgnore u).rules.take 2 =
      [parseRule ".git/**", parseRule "node_modules/**"])
    ∧ ∀ q ∈ getFileList t, 1 < q.length →
        q.take 1 ≠ [".git"] ∧ q.take 1 ≠ ["node_modules"] := by
  constructor
  · intro u
    cases hcase : rootGitignoreContent u with
    | none => simp [rootIgnore, hcase, Ignore.add, permanentPatterns]
    | some c =>
      simp only [rootIgnore, hcase, Ignore.add, permanentPatterns]
      simp [List.take_succ_cons]
  · intro q hq hlen
    have hrules : (rootIgnore t).rules =
        [parseRule ".git/**", parseRule "node_modules/**"] := by
      simp [rootIgnore, hng, Ignore.add, permanentPatterns]
    have hni : ignores (rootIgnore t) q false = false :=
      walkList_not_ignored (rootIgnore t) t [] q hq
    cases q with
    | nil => exact absurd hlen (by simp)
    | cons h1 tl =>
      cases tl with
      | nil => exact absurd hlen (by simp)
      | cons h2 t2 =>
        constructor
        · intro hgit
          have hh1 : h1 = ".git" := by
            simp only [List.take_succ_cons, List.take_zero] at hgit
            exact (List.cons.injEq _ _ _ _ ▸ hgit).1
          subst hh1
          have hgm : ruleMatches (parseRule ".git/**") (".git" :: h2 :: t2) false = true := by
            rw [show parseRule ".git/**" =
              ⟨false, false, true,
                [GlobSeg.seg [GlobTok.lit '.', GlobTok.lit 'g', GlobTok.lit 'i',
                  GlobTok.lit 't'], GlobSeg.doubleStar]⟩ from by decide]
            exact anchored_dirstar_matches _ ".git" h2 t2 (by decide)
          have htrue : ignores (rootIgnore t) (".git" :: h2 :: t2) false = true := by
            simp only [ignores, hrules, List.foldl_cons, List.foldl_nil]
            rw [if_pos hgm]
            by_cases hx : ruleMatches (parseRule "node_modules/**")
                (".git" :: h2 :: t2) false = true
            · rw [if_pos hx]
              decide
            · rw [if_neg hx]
              decide
          rw [htrue] at hni
          exact Bool.noConfusion hni
        · intro hnm
          have hh1 : h1 = "node_modules" := by
            simp only [List.take_succ_cons, List.take_zero] at hnm
            exact (List.cons.injEq _ _ _ _ ▸ hnm).1
          subst hh1
          have hgm : ruleMatches (parseRule "node_modules/**")
              ("node_modules" :: h2 :: t2) false = true := by
            rw [show parseRule "node_modules/**" =
              ⟨false, false, true,
                [GlobSeg.seg [GlobTok.lit 'n', GlobTok.lit 'o', GlobTok.lit 'd',
                  GlobTok.lit 'e', GlobTok.lit '_', GlobTok.lit 'm', GlobTok.lit 'o',
                  GlobTok.lit 'd', GlobTok.lit 'u', GlobTok.lit 'l', GlobTok.lit 'e',
                  GlobTok.lit 's'], GlobSeg.doubleStar]⟩ from by decide]
            exact anchored_dirstar_matches _ "node_modules" h2 t2 (by decide)
          have htrue : ignores (rootIgnore t)
              ("node_modules" :: h2 :: t2) false = true := by
            simp only [ignores, hrules, List.foldl_cons, List.foldl_nil]
            rw [if_pos hgm]
            decide
          rw [htrue] at hni
          exact Bool.noConfusion hni

/-- Witness for the C2 amended theorem: a tree holding a root .git
directory with a file inside; nothing below .git is returned. -/
theorem permanent_rules_installed_and_root_excluded_witness :
    rootGitignoreContent (FS.consDir ".git" (FS.consFile "HEAD" "ref" FS.nil)
        (FS.consFile "a.ts" "" FS.nil)) = none
    ∧ ((∀ u : FS, (rootIgnore u).rules.take 2 =
          [parseRule ".git/**", parseRule "node_modules/**"])
      ∧ ∀ q ∈ getFileList (FS.consDir ".git" (FS.consFile "HEAD" "ref" FS.nil)
            (FS.consFile "a.ts" "" FS.nil)), 1 < q.length →
          q.take 1 ≠ [".git"] ∧ q.take 1 ≠ ["node_modules"]) :=
  ⟨by decide,
    permanent_rules_installed_and_root_excluded
      (FS.consDir ".git" (FS.consFile "HEAD" "ref" FS.nil)
        (FS.consFile "a.ts" "" FS.nil)) (by decide)⟩

/-- Spec-side line processor for the exclusion-rule file, written as a
direct line-at-a-time recursion: comment lines contribute nothing, one
leading separator is stripped, every other line becomes one pattern. -/
def processIgnoreLines : List String → List String
  | [] => []
  | line :: rest =>
    if line.data.head? = some '#' then processIgnoreLines rest
    else (if line.data.head? = some '/' then String.mk line.data.tail else line)
      :: processIgnoreLines rest

theorem charsStartWith_single (c : Char) (l : List Char) :
    charsStartWith [c] l = true ↔ l.head? = some c := by
  cases l with
  | nil => simp [charsStartWith]
  | cons d ds =>
    simp only [charsStartWith, List.head?_cons, Option.some.injEq, Bool.and_true]
    constructor
    · intro h
      exact (eq_of_beq h).symm
    · intro h
      subst h
      simp

theorem gitignorePatterns_eq_processIgnoreLines (c : String) :
    gitignorePatterns c = processIgnoreLines (splitLines c) := by
  rw [gitignorePatterns]
  generalize splitLines c = lines
  induction lines with
  | nil => rfl
  | cons line rest ih =>
    have hhash : jsStartsWith line "#" = true ↔ line.data.head? = some '#' :=
      charsStartWith_single '#' line.data
    have hslash : jsStartsWith line "/" = true ↔ line.data.head? = some '/' :=
      charsStartWith_single '/' line.data
    by_cases hh : line.data.head? = some '#'
    · have hsw : jsStartsWith line "#" = true := hhash.mpr hh
      rw [processIgnoreLines, if_pos hh, List.filter_cons, if_neg (by simp [hsw])]
      exact ih
    · have hsw : jsStartsWith line "#" = false := by
        cases hcase : jsStartsWith line "#" with
        | false => rfl
        | true => exact absurd (hhash.mp hcase) hh
      rw [processIgnoreLines, if_neg hh, List.filter_cons, if_pos (by simp [hsw])]
      rw [List.map_cons, ih]
      congr 1
      by_cases hs : line.data.head? = some '/'
      · rw [if_pos (hslash.mpr hs), if_pos hs]
      · have : jsStartsWith line "/" = false := by
          cases hcase : jsStartsWith line "/" with
          | false => rfl
          | true => exact absurd (hslash.mp hcase) hs
        rw [if_neg (by simp [this]), if_neg hs]

/-- C8: when a .gitignore exists at the root, getFileList parses it line
by line: comment lines are skipped and contribute no pattern, a single
leading separator is stripped, and every remaining line is added as one
pattern after the permanent rules. -/
theorem gitignore_line_parsing (t : FS) (c : String)
    (hg : rootGitignoreContent t = some c) :
    (rootIgnore t).rules =
      permanentPatterns.map parseRule
        ++ (processIgnoreLines (splitLines c)).map parseRule
    ∧ gitignorePatterns c = processIgnoreLines (splitLines c) := by
  have he := gitignorePatterns_eq_processIgnoreLines c
  refine ⟨?_, he⟩
  simp only [rootIgnore, hg, Ignore.add]
  rw [he]
  simp

/-- Witness for the C8 theorem on a concrete three-line ignore file with
a comment, a root-anchored pattern and a directory pattern. -/
theorem gitignore_line_parsing_witness :
    rootGitignoreContent (FS.consFile ".gitignore" "# note\n/dist\nbuild/" FS.nil) =
      some "# note\n/dist\nbuild/"
    ∧ ((rootIgnore (FS.consFile ".gitignore" "# note\n/dist\nbuild/" FS.nil)).rules =
        permanentPatterns.map parseRule
          ++ (processIgnoreLines (splitLines "# note\n/dist\nbuild/")).map parseRule
      ∧ gitignorePatterns "# note\n/dist\nbuild/" =
          processIgnoreLines (splitLines "# note\n/dist\nbuild/")) :=
  ⟨by decide,
    gitignore_line_parsing (FS.consFile ".gitignore" "# note\n/dist\nbuild/" FS.nil)
      "# note\n/dist\nbuild/" (by decide)⟩

/-- C9 amended: a negation rule standing last in the rule set and
matching a file re-includes it — provided no ancestor directory of the
file is pruned — whatever exclusions precede it. -/
theorem negation_last_reincludes (t : FS) (p : List String) (pre : List Rule) (rn : Rule)
    (hp : p ∈ filePaths [] t)
    (hrules : (rootIgnore t).rules = pre ++ [rn])
    (hneg : rn.negated = true) (hm : ruleMatches rn p false = true)
    (hanc : ∀ k, k < p.length → 0 < k →
      ignores (rootIgnore t) (p.take k) true = false) :
    p ∈ getFileList t := by
  have hfile : ignores (rootIgnore t) p false = false := by
    have heq : ignores (rootIgnore t) p false = ignores ⟨pre ++ [rn]⟩ p false := by
      simp [ignores, hrules]
    rw [heq]
    exact ignores_last_negation pre rn p false hneg hm
  exact walkList_complete (rootIgnore t) t [] p hp hfile (fun k hk1 hk2 => hanc k hk2 hk1)

/-- The sample tree for the C9 witness: a .gitignore that excludes
everything inside build and then re-includes build/keep.txt. -/
def c9Tree : FS :=
  FS.consFile ".gitignore" "build/**\n!build/keep.txt"
    (FS.consDir "build"
      (FS.consFile "keep.txt" "" (FS.consFile "junk.txt" "" FS.nil)) FS.nil)

/-- Witness for the C9 amended theorem: the negated path is returned
while its excluded sibling is not. -/
theorem negation_last_reincludes_witness :
    (rootIgnore c9Tree).rules =
      [parseRule ".git/**", parseRule "node_modules/**", parseRule "build/**"]
        ++ [parseRule "!build/keep.txt"]
    ∧ (parseRule "!build/keep.txt").negated = true
    ∧ ruleMatches (parseRule "!build/keep.txt") ["build", "keep.txt"] false = true
    ∧ ruleMatches (parseRule "build/**") ["build", "keep.txt"] false = true
    ∧ ["build", "junk.txt"] ∉ getFileList c9Tree
    ∧ ["build", "keep.txt"] ∈ getFileList c9Tree :=
  ⟨by decide, by decide, by decide, by decide, by decide,
    negation_last_reincludes c9Tree ["build", "keep.txt"]
      [parseRule ".git/**", parseRule "node_modules/**", parseRule "build/**"]
      (parseRule "!build/keep.txt")
      (by decide) (by decide) (by decide) (by decide) (by decide)⟩

/-- The tree for the C9 counterexample: the broader exclusion is a
directory-only pattern, so the directory is pruned before the negation
can ever re-include the file. -/
def c9PruneTree : FS :=
  FS.consFile ".gitignore" "build/\n!build/keep.txt"
    (FS.consDir "build" (FS.consFile "keep.txt" "" FS.nil) FS.nil)

/-- C9 counterexample: build/keep.txt is excluded by the earlier broader
pattern, the membership test itself follows override ordering (the final
verdict for the file is not-ignored), yet the path does NOT appear in the
returned list because the build directory was pruned without recursing. -/
theorem negation_blocked_by_pruning :
    ruleMatches (parseRule "build/") ["build", "keep.txt"] false = true
    ∧ ignores (rootIgnore c9PruneTree) ["build", "keep.txt"] false = false
    ∧ getFileList c9PruneTree = [[".gitignore"]]
    ∧ ["build", "keep.txt"] ∉ getFileList c9PruneTree := by decide

end CodePlugin
